import Mathlib

/-!
# Verification of `dat_creator.py`

A shallow embedding of the core of `dat_creator.py`: the path-folding
logic (`build_dat`, lines 168-187), the loose-file policy (lines 183-187),
the directory/game caches and XML-tree construction (lines 227-251), the
header construction (`build_header`), the always-write-on-exit behaviour of
the `finally` block (lines 253-268), and the streaming hash loop
(`hash_file`, lines 114-128).

Python machine-level details are modelled explicitly: the negative
list indexing and slicing (`pyIndex`, `pySliceFrom`), string truthiness in
`a.name or "DAT"` (`pyOr`), `str.split("/")` (`splitSeg`), `"/".join`
(`joinSegs`) and `os.path.splitext` for POSIX paths (`splitext`).
-/

/-- Python `x or d` for an optional string `x`: `None` and `""` are falsy. -/
def pyOr (x : Option String) (d : String) : String :=
  match x with
  | none => d
  | some s => if s = "" then d else s

/-- Helper for `splitSeg`: accumulates the current segment (reversed). -/
def splitSegGo (cur : List Char) : List Char → List String
  | [] => [String.mk cur.reverse]
  | c :: rest =>
      if c = '/' then String.mk cur.reverse :: splitSegGo [] rest
      else splitSegGo (c :: cur) rest

/-- Python `s.split("/")` (line 88 of the source: `rel_p.split("/")`). -/
def splitSeg (s : String) : List String :=
  splitSegGo [] s.data

/-- Python `"/".join(l)` (used at lines 178, 230 and 238 of the source). -/
def joinSegs : List String → String
  | [] => ""
  | [s] => s
  | s :: rest => s ++ "/" ++ joinSegs rest

/-- Index of the last occurrence of `c` (Python `str.rfind`, as `Option Nat`). -/
def rlastIdx (c : Char) : List Char → Option Nat
  | [] => none
  | x :: xs =>
      match rlastIdx c xs with
      | some r => some (r + 1)
      | none => if x = c then some 0 else none

/-- First index of the basename scan in `posixpath.splitext`: one past the
last `'/'`, or `0` when there is no separator (Python `sepIndex + 1`). -/
def sepDrop (sep : Option Nat) : Nat :=
  match sep with
  | some m => m + 1
  | none => 0

/-- Python `dotIndex > sepIndex` where a missing separator counts as `-1`. -/
def sepLt (sep : Option Nat) (n : Nat) : Bool :=
  match sep with
  | some m => decide (m < n)
  | none => true

/-- Python `os.path.splitext` for POSIX paths, as called at line 187 of the source:
splits at the last `'.'` provided it lies after the last `'/'` and the
basename does not consist solely of dots up to that point (so `".bashrc"`
has no extension). Returns `(root, ext)`. -/
def splitext (s : String) : String × String :=
  match rlastIdx '.' s.data, rlastIdx '/' s.data with
  | none, _ => (s, "")
  | some n, sep =>
      if sepLt sep n && !(((s.data.take n).drop (sepDrop sep)).all (fun ch => ch = '.')) then
        (String.mk (s.data.take n), String.mk (s.data.drop n))
      else (s, "")

/-- Python list indexing `xs[i]` with negative-index support; `none` models
an `IndexError`. -/
def pyIndex (xs : List String) (i : Int) : Option String :=
  let j : Int := if i < 0 then (xs.length : Int) + i else i
  if j < 0 then none else xs.get? j.toNat

/-- Python slice `xs[i:]` with negative-index support (never errors). -/
def pySliceFrom (xs : List String) (i : Int) : List String :=
  if i < 0 then xs.drop ((xs.length : Int) + i).toNat else xs.drop i.toNat

/-- The `--loose-files` choice (line 293 of the source). -/
inductive LoosePolicy where
  | strip
  | parent
deriving DecidableEq

/-- The `--forcepacking` choice (line 291 of the source). -/
inductive Packing where
  | fileonly
  | archive
  | split
deriving DecidableEq

/-- The argparse namespace `a` consumed by `build_dat` and `build_header`:
header metadata, `--game-depth` (`type=int`, unvalidated, so an `Int`),
`--loose-files` and `--strip-ext`/`--no-strip-ext`. -/
structure Args where
  name : Option String
  description : Option String
  category : Option String
  version : Option String
  date : Option String
  author : Option String
  comment : Option String
  url : Option String
  forcepacking : Option Packing
  game_depth : Int
  loose_files : LoosePolicy
  strip : Bool
deriving DecidableEq

/-- The `game` computation (lines 172-176): `parts[a.game_depth - 1]` when
`len(parts) >= a.game_depth`, else `a.name or "DAT"`. -/
def gameOf (a : Args) (parts : List String) : Option String :=
  if a.game_depth ≤ (parts.length : Int) then pyIndex parts (a.game_depth - 1)
  else some (pyOr a.name "DAT")

/-- The `rom` computation (lines 177-181): `"/".join(parts[a.game_depth:])`
when `len(parts) > a.game_depth`, else `parts[-1]`. -/
def romOf (a : Args) (parts : List String) : Option String :=
  if a.game_depth < (parts.length : Int) then some (joinSegs (pySliceFrom parts a.game_depth))
  else pyIndex parts (-1)

/-- The name-deciding step of `build_dat` (lines 168-181): computes
`(dirs, game, rom)`; `none` models a Python `IndexError`. -/
def foldNames (a : Args) (parts : List String) (rel : String) :
    Option (List String × String × String) :=
  if a.game_depth = 0 then some ([], pyOr a.name "DAT", rel)
  else
    match gameOf a parts, romOf a parts with
    | some game, some rom => some (parts.take (max (a.game_depth - 1) 0).toNat, game, rom)
    | _, _ => none

/-- The loose-file adjustment (lines 183-187): when `game == rom`, policy
`parent` promotes the last directory segment when one exists, otherwise
policy `strip` (with `--strip-ext`) removes the extension from `game`. -/
def looseAdjust (a : Args) (dirs : List String) (game rom : String) :
    List String × String × String :=
  if game = rom then
    if a.loose_files = LoosePolicy.parent ∧ dirs ≠ [] then
      (dirs.dropLast, dirs.getLastD "", rom)
    else if a.loose_files = LoosePolicy.strip ∧ a.strip then
      (dirs, (splitext game).1, rom)
    else (dirs, game, rom)
  else (dirs, game, rom)

/-- Lines 168-187 combined: fold the segment list, then apply the
loose-file policy. -/
def foldAndAdjust (a : Args) (parts : List String) (rel : String) :
    Option (List String × String × String) :=
  match foldNames a parts rel with
  | some (dirs, game, rom) => some (looseAdjust a dirs game rom)
  | none => none

/-- One header child element, emitted only when the value is truthy
(`if val:` at line 107 of the source). -/
def addIf (tag : String) (v : Option String) : List (String × String) :=
  match v with
  | some s => if s = "" then [] else [(tag, s)]
  | none => []

/-- The ordered header children built by `build_header` (lines 95-108);
`today` stands for `datetime.date.today().isoformat()`. -/
def headerFields (a : Args) (today : String) : List (String × String) :=
  addIf "name" a.name ++ addIf "description" a.description ++
  addIf "category" a.category ++ addIf "version" a.version ++
  addIf "date" (some (pyOr a.date today)) ++ addIf "author" a.author ++
  addIf "comment" a.comment ++ addIf "url" a.url

/-- The `<header>` element: its child elements in order, plus the optional
`<romvault forcepacking=.../>` marker (lines 109-110). -/
structure Header where
  fields : List (String × String)
  forcepacking : Option Packing
deriving DecidableEq

/-- The function `build_header` (lines 95-110). -/
def buildHeader (a : Args) (today : String) : Header :=
  ⟨headerFields a today, a.forcepacking⟩

/-- One discovered file together with the digest that `hash_file` returns
for it: the relative path (POSIX form), the byte size and the three hex
digests. `segments` is derived as `splitSeg rel`, as at line 89. -/
structure Item where
  rel : String
  size : Nat
  crc : String
  md5 : String
  sha1 : String
deriving DecidableEq

/-- A `<dir>` element: the cache key it was created under (ghost data for
specification), its parent element id, its own id, and its `name`. -/
structure DirElem where
  key : Nat × String
  parentId : Nat
  id : Nat
  name : String
deriving DecidableEq

/-- A `<game>` element: parent element id, its own id, and its `name`. -/
structure GameElem where
  parentId : Nat
  id : Nat
  name : String
deriving DecidableEq

/-- A `<rom>` element: the `(dirs, game)` pair it was inserted under (ghost
data for specification), the id of the owning `<game>` element, and the
attributes written at lines 243-251. -/
structure RomEntry where
  key : List String × String
  gameId : Nat
  name : String
  size : Nat
  crc : String
  md5 : String
  sha1 : String
deriving DecidableEq

/-- Lookup in an association list (models Python `dict` indexing for the
`dir_cache` / `game_cache` dictionaries of line 160). -/
def alookup {α β : Type} [DecidableEq α] : List (α × β) → α → Option β
  | [], _ => none
  | (k, v) :: rest, a => if a = k then some v else alookup rest a

/-- The mutable state of `build_dat`'s XML construction: the two caches,
a fresh-id counter, the created elements in creation order, and a ghost
trace of every directory-cache resolution. Element id `0` is the
`<datafile>` root. -/
structure BState where
  dirCache : List ((Nat × String) × Nat)
  gameCache : List ((Nat × String) × Nat)
  nextId : Nat
  dirElems : List DirElem
  gameElems : List GameElem
  roms : List RomEntry
  dirTrace : List ((Nat × String) × Nat)
deriving DecidableEq

/-- The id of the global `<game>` element `g_global` created at lines
155-159 when `game_depth == 0`. -/
def gGlobalId : Nat := 1

/-- The state with nothing created yet. -/
def emptyState : BState :=
  ⟨[], [], 1, [], [], [], []⟩

/-- The XML scaffold before the loop (lines 153-160): for `game_depth == 0`
the single global `<game>` element already exists. -/
def initState (a : Args) : BState :=
  if a.game_depth = 0 then
    { emptyState with
      nextId := 2
      gameElems := [⟨0, gGlobalId, pyOr a.name "DAT"⟩] }
  else emptyState

/-- The `<dir>` resolution loop (lines 228-233): walk `dirs` keeping the
current parent id, keying the cache by `(lvl, "/".join(parts[:lvl]))`, and
creating a `<dir>` element on a cache miss. Also records every resolution
in the ghost `dirTrace`. -/
def resolveDirs (parts : List String) :
    BState → Nat → Nat → List String → BState × Nat
  | st, parentId, _, [] => (st, parentId)
  | st, parentId, lvl, d :: rest =>
      let k : Nat × String := (lvl, joinSegs (parts.take lvl))
      match alookup st.dirCache k with
      | some nid =>
          resolveDirs parts
            { st with dirTrace := st.dirTrace ++ [(k, nid)] } nid (lvl + 1) rest
      | none =>
          let nid := st.nextId
          resolveDirs parts
            { st with
              dirCache := st.dirCache ++ [(k, nid)]
              dirElems := st.dirElems ++ [⟨k, parentId, nid, d⟩]
              nextId := st.nextId + 1
              dirTrace := st.dirTrace ++ [(k, nid)] } nid (lvl + 1) rest

/-- The game-cache key `gk = (len(dirs), "/".join(dirs + [game]))`
(line 238). -/
def gameKey (dirs : List String) (game : String) : Nat × String :=
  (dirs.length, joinSegs (dirs ++ [game]))

/-- Build the `<rom>` entry inserted at lines 243-251. -/
def mkRom (key : List String × String) (gid : Nat) (nm : String) (it : Item) : RomEntry :=
  ⟨key, gid, nm, it.size, it.crc, it.md5, it.sha1⟩

/-- One iteration of the main loop of `build_dat` (lines 166-251) for one
item: fold the path, apply the loose-file policy, resolve the `<dir>`
chain, resolve or create the `<game>` element (`g_global` when
`game_depth == 0`), and append the `<rom>`. `none` models a Python
`IndexError` escaping from the name-deciding step. -/
def processItem (a : Args) (st : BState) (it : Item) : Option BState :=
  match foldAndAdjust a (splitSeg it.rel) it.rel with
  | none => none
  | some (dirs, game, rom) =>
      let rd := resolveDirs (splitSeg it.rel) st 0 1 dirs
      let st1 := rd.1
      if a.game_depth = 0 then
        some { st1 with roms := st1.roms ++ [mkRom (dirs, game) gGlobalId rom it] }
      else
        match alookup st1.gameCache (gameKey dirs game) with
        | some gid =>
            some { st1 with roms := st1.roms ++ [mkRom (dirs, game) gid rom it] }
        | none =>
            some { st1 with
              gameCache := st1.gameCache ++ [(gameKey dirs game, st1.nextId)]
              gameElems := st1.gameElems ++ [⟨rd.2, st1.nextId, game⟩]
              nextId := st1.nextId + 1
              roms := st1.roms ++ [mkRom (dirs, game) st1.nextId rom it] }

/-- The main loop of `build_dat`: processes items in order; on an error it
stops with the state built so far (the `finally` block then writes that
state). The boolean records whether the loop completed normally. -/
def runLoop (a : Args) : BState → List Item → BState × Bool
  | st, [] => (st, true)
  | st, it :: rest =>
      match processItem a st it with
      | none => (st, false)
      | some st2 => runLoop a st2 rest

/-- The state reached when the loop over `items` exits. -/
def finalState (a : Args) (items : List Item) : BState :=
  (runLoop a (initState a) items).1

/-- The written document: the header plus the element forest, abstracting
the XML serialization of lines 261-267. -/
structure Doc where
  header : Header
  dirElems : List DirElem
  gameElems : List GameElem
  roms : List RomEntry
deriving DecidableEq

/-- The write performed by the `finally` block (lines 253-268): always
serializes the current state, complete or not. -/
def writeDoc (a : Args) (today : String) (st : BState) : Doc :=
  ⟨buildHeader a today, st.dirElems, st.gameElems, st.roms⟩

/-- The function `build_dat` (lines 132-268) restricted to its XML-producing core: run
the loop over all items and write the resulting document. -/
def build_dat (a : Args) (today : String) (items : List Item) : Doc :=
  writeDoc a today (finalState a items)

/-- The run of `build_dat` interrupted (KeyboardInterrupt or a failing file read)
right after the first `N` items have been fully processed: the `finally`
block (lines 253-268) still writes the document built so far, and `main`
(lines 342-345) recovers from the cancellation. -/
def build_dat_interrupted (a : Args) (today : String) (items : List Item) (N : Nat) : Doc :=
  writeDoc a today (runLoop a (initState a) (items.take N)).1

/-- The `(name, size, crc, md5, sha1)` attribute tuple expected for the
`<rom>` of an item (junk name if the fold step errors). -/
def expectedRom (a : Args) (it : Item) : String × Nat × String × String × String :=
  match foldAndAdjust a (splitSeg it.rel) it.rel with
  | some (_, _, rom) => (rom, it.size, it.crc, it.md5, it.sha1)
  | none => ("", it.size, it.crc, it.md5, it.sha1)

/-- The attribute tuple of a recorded `<rom>` element. -/
def romProj (r : RomEntry) : String × Nat × String × String × String :=
  (r.name, r.size, r.crc, r.md5, r.sha1)


/-- A configuration with `game_depth = 2`, no `--name`, default policies;
used to refute C6. -/
def aFold2 : Args :=
  ⟨none, none, none, none, none, none, none, none, none, 2, LoosePolicy.strip, true⟩

/-- A configuration with `game_depth = -1`; used as the C10 witness. -/
def aNeg1 : Args :=
  ⟨none, none, none, none, none, none, none, none, none, -1, LoosePolicy.strip, true⟩

/-- A configuration with the `parent` loose-file policy. -/
def aParent : Args :=
  ⟨none, none, none, none, none, none, none, none, none, 1, LoosePolicy.parent, true⟩

/-- Two items used by the run-level witnesses. -/
def itemX : Item := ⟨"A/x.txt", 3, "aa", "bb", "cc"⟩

/-- A second item used by the run-level witnesses. -/
def itemY : Item := ⟨"A/B/y.txt", 5, "dd", "ee", "ff"⟩

/-- A configuration with `game_depth = 0`. -/
def aDepth0 : Args :=
  ⟨none, none, none, none, none, none, none, none, none, 0, LoosePolicy.strip, true⟩

/-- Directory-side invariant: every recorded resolution and every created
`<dir>` element agrees with the cache, and `<dir>` elements have pairwise
distinct cache keys. -/
def DirOk (st : BState) : Prop :=
  (∀ p ∈ st.dirTrace, alookup st.dirCache p.1 = some p.2)
  ∧ (∀ e ∈ st.dirElems, alookup st.dirCache e.key = some e.id)
  ∧ (∀ e ∈ st.dirElems, ∀ f ∈ st.dirElems, e.key = f.key → e = f)

/-- Game-side invariant: every `<rom>` sits under the `<game>` the game
cache assigns to its `(dirs, game)` key (under the global game when
`game_depth == 0`). -/
def RomOk (a : Args) (st : BState) : Prop :=
  ∀ r ∈ st.roms,
    if a.game_depth = 0 then r.gameId = gGlobalId
    else alookup st.gameCache (gameKey r.key.1 r.key.2) = some r.gameId

/-- The combined Tree Builder invariant. -/
def BuildInv (a : Args) (st : BState) : Prop := DirOk st ∧ RomOk a st

/-- Lowercase hex rendering of the CRC, zero-padded to 8 digits
(the f-string at line 128). -/
def hex8 (n : Nat) : String :=
  let ds := Nat.toDigits 16 n
  String.mk (List.replicate (8 - ds.length) '0' ++ ds)

/-- The CRC-32 (IEEE) reflected polynomial used by `zlib.crc32`. -/
def CRC_POLY : Nat := 0xEDB88320

/-- One bit step of the reflected CRC-32. -/
def crcBit (c : Nat) : Nat :=
  if c % 2 = 1 then (c / 2) ^^^ CRC_POLY else c / 2

/-- One byte step of the reflected CRC-32. -/
def crcByte (c b : Nat) : Nat :=
  crcBit^[8] (c ^^^ b % 256)

/-- Python `zlib.crc32(chunk, c)`: pre- and post-conditioned reflected CRC-32 over
the bytes of `chunk`, chained from the running value `c` (line 121). -/
def crc32 (chunk : List Nat) (c : Nat) : Nat :=
  (chunk.foldl crcByte (c ^^^ 0xFFFFFFFF)) ^^^ 0xFFFFFFFF

/-- The loop state of `hash_file`: running CRC value, the MD5 and SHA-1
accumulator states (abstract types `σ` and `τ`, updated by the supplied
block functions), the time of the last ping, and a count of pings fired.
The ping counter stands for the external effect of `ping_cb`. -/
structure HState (σ τ : Type) where
  crc : Nat
  m : σ
  s : τ
  last : Int
  pings : Nat

/-- The constant `PING_S = 1.0` (line 65); the UI ping interval in seconds. -/
def PING_S : Int := 1

/-- One iteration of the read loop of `hash_file` (lines 120-127): update
the three digests with the chunk, then fire the progress callback when at
least `PING_S` has elapsed since the last ping. `now` is the value
`time.monotonic()` returned in this iteration. -/
def hashStep {σ τ : Type} (um : σ → List Nat → σ) (us : τ → List Nat → τ)
    (st : HState σ τ) (chunk : List Nat) (now : Int) : HState σ τ :=
  let h : HState σ τ :=
    { st with
      crc := crc32 chunk st.crc
      m := um st.m chunk
      s := us st.s chunk }
  if PING_S ≤ now - h.last then { h with pings := h.pings + 1, last := now } else h

/-- The read loop of `hash_file` over the remaining chunks; `sched i` is
the `time.monotonic()` observation of the `i`-th iteration. -/
def hashLoop {σ τ : Type} (um : σ → List Nat → σ) (us : τ → List Nat → τ)
    (sched : Nat → Int) : HState σ τ → Nat → List (List Nat) → HState σ τ
  | st, _, [] => st
  | st, i, ch :: rest => hashLoop um us sched (hashStep um us st ch (sched i)) (i + 1) rest

/-- The function `hash_file` (lines 114-128): the file content is the chunk sequence
produced by the 64 KiB reads; MD5 and SHA-1 are abstract streaming hashes
given by an initial state, an update function and a hex rendering (the
`hashlib` objects); `sched`/`t0` model the wall-clock observations.
Returns `(size, crc hex, md5 hex, sha1 hex)`. -/
def hash_file {σ τ : Type} (um : σ → List Nat → σ) (us : τ → List Nat → τ)
    (hm : σ → String) (hs : τ → String) (m0 : σ) (s0 : τ) (size : Nat)
    (chunks : List (List Nat)) (sched : Nat → Int) (t0 : Int) :
    Nat × String × String × String :=
  let fin := hashLoop um us sched ⟨0, m0, s0, t0, 0⟩ 0 chunks
  (size, hex8 (fin.crc % 2 ^ 32), hm fin.m, hs fin.s)

theorem hashStep_eq {σ τ : Type} (um : σ → List Nat → σ) (us : τ → List Nat → τ)
    (c : Nat) (m : σ) (s : τ) (l : Int) (p : Nat) (ch : List Nat) (now : Int) :
    hashStep um us ⟨c, m, s, l, p⟩ ch now =
      if PING_S ≤ now - l then ⟨crc32 ch c, um m ch, us s ch, now, p + 1⟩
      else ⟨crc32 ch c, um m ch, us s ch, l, p⟩ := by
  simp only [hashStep]

theorem hashLoop_agnostic {σ τ : Type} (um : σ → List Nat → σ) (us : τ → List Nat → τ)
    (chunks : List (List Nat)) :
    ∀ (s1 s2 : Nat → Int) (i1 i2 : Nat) (c : Nat) (m : σ) (s : τ)
      (l1 l2 : Int) (p1 p2 : Nat),
      (hashLoop um us s1 ⟨c, m, s, l1, p1⟩ i1 chunks).crc
          = (hashLoop um us s2 ⟨c, m, s, l2, p2⟩ i2 chunks).crc
      ∧ (hashLoop um us s1 ⟨c, m, s, l1, p1⟩ i1 chunks).m
          = (hashLoop um us s2 ⟨c, m, s, l2, p2⟩ i2 chunks).m
      ∧ (hashLoop um us s1 ⟨c, m, s, l1, p1⟩ i1 chunks).s
          = (hashLoop um us s2 ⟨c, m, s, l2, p2⟩ i2 chunks).s := by
  induction chunks with
  | nil => intro s1 s2 i1 i2 c m s l1 l2 p1 p2; exact ⟨rfl, rfl, rfl⟩
  | cons ch rest ih =>
      intro s1 s2 i1 i2 c m s l1 l2 p1 p2
      simp only [hashLoop, hashStep_eq]
      split_ifs <;>
        exact ih s1 s2 (i1 + 1) (i2 + 1) (crc32 ch c) (um m ch) (us s ch) _ _ _ _

/-- C7: For every file content, the digest computation is deterministic:
two runs over the same unmodified content yield identical CRC-32/MD5/SHA-1
triples, and the resulting digest values are independent of when, or
whether, the progress callback fires — the wall-clock schedule (`sched`,
`t0`), which alone decides the ping firings, never affects the returned
size or digests. -/
theorem c7_hash_deterministic {σ τ : Type} (um : σ → List Nat → σ)
    (us : τ → List Nat → τ) (hm : σ → String) (hs : τ → String)
    (m0 : σ) (s0 : τ) (size : Nat) (chunks : List (List Nat))
    (sched1 sched2 : Nat → Int) (t1 t2 : Int) :
    hash_file um us hm hs m0 s0 size chunks sched1 t1
      = hash_file um us hm hs m0 s0 size chunks sched2 t2 := by
  obtain ⟨h1, h2, h3⟩ :=
    hashLoop_agnostic um us chunks sched1 sched2 0 0 0 m0 s0 t1 t2 0 0
  simp only [hash_file, h1, h2, h3]

theorem get?_length_lt (l : List String) (n : Nat) (h : n < l.length) :
    l.get? n = some (l.getD n "") := by
  rw [List.getD_eq_getElem?_getD, List.get?_eq_getElem?, List.getElem?_eq_getElem h]
  rfl

theorem get?_last (l : List String) (h : l ≠ []) :
    l.get? (l.length - 1) = some (l.getLast h) := by
  rw [List.getLast_eq_getElem, List.get?_eq_getElem?, List.getElem?_eq_getElem]

theorem pyIndex_neg_one (l : List String) (h : l ≠ []) :
    pyIndex l (-1) = some (l.getLast h) := by
  have hl : 0 < l.length := List.length_pos.mpr h
  simp only [pyIndex]
  have e1 : (if (-1 : Int) < 0 then (l.length : Int) + (-1) else (-1 : Int))
      = (l.length : Int) - 1 := by
    rw [if_pos (by norm_num)]
    omega
  rw [e1, if_neg (by omega)]
  have e2 : ((l.length : Int) - 1).toNat = l.length - 1 := by omega
  rw [e2, get?_last l h]

theorem pyIndex_nonneg (l : List String) (i : Int) (h0 : 0 ≤ i)
    (hlt : i < (l.length : Int)) :
    pyIndex l i = some (l.getD i.toNat "") := by
  simp only [pyIndex]
  have e1 : (if i < 0 then (l.length : Int) + i else i) = i := by
    rw [if_neg (by omega)]
  rw [e1, if_neg (by omega)]
  exact get?_length_lt l i.toNat (by omega)

/-- The name-deciding step for `game_depth >= 1` and a non-empty segment
list, in terms of ordinary list operations. -/
theorem foldNames_pos (a : Args) (parts : List String) (rel : String)
    (h1 : 1 ≤ a.game_depth) (h2 : parts ≠ []) :
    foldNames a parts rel = some
      (parts.take (a.game_depth.toNat - 1),
       (if a.game_depth ≤ (parts.length : Int) then parts.getD (a.game_depth.toNat - 1) ""
        else pyOr a.name "DAT"),
       (if a.game_depth < (parts.length : Int) then joinSegs (parts.drop a.game_depth.toNat)
        else parts.getLast h2)) := by
  have hl : 0 < parts.length := List.length_pos.mpr h2
  have hne : ¬ a.game_depth = 0 := by omega
  have htake : (max (a.game_depth - 1) 0).toNat = a.game_depth.toNat - 1 := by omega
  simp only [foldNames, if_neg hne, gameOf, romOf, htake]
  by_cases hg : a.game_depth ≤ (parts.length : Int)
  · rw [if_pos hg, pyIndex_nonneg parts (a.game_depth - 1) (by omega) (by omega)]
    have hd1 : (a.game_depth - 1).toNat = a.game_depth.toNat - 1 := by omega
    rw [hd1]
    by_cases hr : a.game_depth < (parts.length : Int)
    · rw [if_pos hr, if_pos hr, if_pos hg]
      have : pySliceFrom parts a.game_depth = parts.drop a.game_depth.toNat := by
        simp only [pySliceFrom]
        rw [if_neg (by omega)]
      rw [this]
    · rw [if_neg hr, if_neg hr, if_pos hg, pyIndex_neg_one parts h2]
  · have hr : ¬ a.game_depth < (parts.length : Int) := by omega
    rw [if_neg hg, if_neg hr, pyIndex_neg_one parts h2, if_neg hr, if_neg hg]

/-- C1: For every `foldDepth >= 1` and every non-empty segment list, the
Path Folder returns `dirSegments = segments[0 .. foldDepth-2]` (empty when
`foldDepth <= 1`); `groupName = segments[foldDepth-1]` when
`len(segments) >= foldDepth`, and otherwise the fallback
`RunConfig.name or "DAT"`; and `leafName = segments[foldDepth:]` joined by
`'/'` when `len(segments) > foldDepth`, and otherwise the last segment. -/
theorem c1_fold_rules (a : Args) (parts : List String) (rel : String)
    (h1 : 1 ≤ a.game_depth) (h2 : parts ≠ []) :
    foldNames a parts rel = some
      (parts.take (a.game_depth.toNat - 1),
       (if a.game_depth ≤ (parts.length : Int) then parts.getD (a.game_depth.toNat - 1) ""
        else pyOr a.name "DAT"),
       (if a.game_depth < (parts.length : Int) then joinSegs (parts.drop a.game_depth.toNat)
        else parts.getLast h2)) :=
  foldNames_pos a parts rel h1 h2

theorem c1_witness :
    (1 : Int) ≤ 2 ∧ (["Cat", "Proj", "docs", "manual.pdf"] : List String) ≠ [] ∧
    foldNames
      ⟨none, none, none, none, none, none, none, none, none, 2, LoosePolicy.strip, true⟩
      ["Cat", "Proj", "docs", "manual.pdf"] "Cat/Proj/docs/manual.pdf"
      = some (["Cat"], "Proj", "docs/manual.pdf") := by
  refine ⟨by decide, by decide, ?_⟩
  have h := c1_fold_rules
    ⟨none, none, none, none, none, none, none, none, none, 2, LoosePolicy.strip, true⟩
    ["Cat", "Proj", "docs", "manual.pdf"] "Cat/Proj/docs/manual.pdf"
    (by decide) (by decide)
  rw [h]
  decide


theorem pyIndex_neg (l : List String) (k : Nat) (hk : 1 ≤ k) (hlen : k ≤ l.length) :
    pyIndex l (-(k : Int)) = some (l.getD (l.length - k) "") := by
  simp only [pyIndex]
  have e1 : (if -(k : Int) < 0 then (l.length : Int) + -(k : Int) else -(k : Int))
      = (l.length : Int) - k := by
    rw [if_pos (by omega)]
    omega
  rw [e1, if_neg (by omega)]
  have e2 : ((l.length : Int) - k).toNat = l.length - k := by omega
  rw [e2]
  exact get?_length_lt l (l.length - k) (by omega)

theorem pyIndex_neg_oob (l : List String) (k : Nat) (hk : 1 ≤ k) (hlen : l.length < k) :
    pyIndex l (-(k : Int)) = none := by
  simp only [pyIndex]
  have e1 : (if -(k : Int) < 0 then (l.length : Int) + -(k : Int) else -(k : Int))
      = (l.length : Int) - k := by
    rw [if_pos (by omega)]
    omega
  rw [e1, if_pos (by omega)]

theorem joinSegs_singleton (s : String) : joinSegs [s] = s := rfl

theorem joinSegs_drop_last (l : List String) (h : l ≠ []) :
    joinSegs (l.drop (l.length - 1)) = l.getD (l.length - 1) "" := by
  have hlt : l.length - 1 < l.length := by
    have : 0 < l.length := List.length_pos.mpr h
    omega
  rw [List.drop_eq_getElem_cons hlt]
  have hnil : l.drop (l.length - 1 + 1) = [] := by
    apply List.drop_eq_nil_of_le
    omega
  rw [hnil, joinSegs_singleton]
  rw [List.getD_eq_getElem?_getD, List.getElem?_eq_getElem hlt]
  rfl

/-- C6 counterexample: with `foldDepth = 2` and the single-segment path
`"x.txt"` (so `len(segments) < foldDepth`), the computed groupName is the
fallback `"DAT"` while the leafName is `"x.txt"` — they are NOT equal, so
the loose-file branch is not triggered: the loose-file policy leaves the
fold result unchanged. This refutes the claim that the fallback groupName
always equals the leafName (and that the loose-file branch always fires)
when `len(segments) < foldDepth`. -/
theorem c6_counterexample :
    foldNames aFold2 ["x.txt"] "x.txt" = some (["x.txt"], "DAT", "x.txt")
    ∧ ("DAT" : String) ≠ "x.txt"
    ∧ foldAndAdjust aFold2 ["x.txt"] "x.txt" = foldNames aFold2 ["x.txt"] "x.txt" := by
  refine ⟨by decide, by decide, by decide⟩

/-- C6 (amended): for every `foldDepth >= 1` and non-empty segment list
with `len(segments) < foldDepth`, the computed groupName is the fallback
`RunConfig.name or "DAT"` and the computed leafName is the last segment;
the loose-file branch is therefore triggered only when the fallback equals
the last segment — whenever they differ, the loose-file policy application
leaves the fold result unchanged (it is not always triggered). -/
theorem c6_amended_fallback (a : Args) (parts : List String) (rel : String)
    (h1 : 1 ≤ a.game_depth) (h2 : parts ≠ [])
    (h3 : (parts.length : Int) < a.game_depth) :
    foldNames a parts rel
      = some (parts.take (a.game_depth.toNat - 1), pyOr a.name "DAT", parts.getLast h2)
    ∧ (pyOr a.name "DAT" ≠ parts.getLast h2 →
        foldAndAdjust a parts rel = foldNames a parts rel) := by
  have hfold := foldNames_pos a parts rel h1 h2
  rw [if_neg (by omega), if_neg (by omega)] at hfold
  refine ⟨hfold, fun hne => ?_⟩
  unfold foldAndAdjust
  rw [hfold]
  unfold looseAdjust
  simp [hne]

theorem c6_witness :
    foldNames aFold2 ["loose.bin"] "loose.bin"
      = some (["loose.bin"], "DAT", "loose.bin")
    ∧ foldAndAdjust aFold2 ["loose.bin"] "loose.bin"
      = foldNames aFold2 ["loose.bin"] "loose.bin" := by
  have h := c6_amended_fallback aFold2 ["loose.bin"] "loose.bin"
    (by decide) (by decide) (by decide)
  exact ⟨h.1, h.2 (by decide)⟩

/-- C10: the CLI parses `--game-depth` with `type=int` and no validation
(line 292), so a negative depth reaches the fold step unchanged
(`game_depth : Int` in this model). For `foldDepth = -1`: with at least
two segments the group name is taken by Python negative indexing from the
end of the list (`parts[-2]`, the second-to-last segment); for a
single-segment path the index `parts[-2]` is out of range, so the fold
step fails (`none`, modelling the `IndexError`) instead of returning a
result. -/
theorem c10_negative_depth (a : Args) (parts : List String) (rel : String)
    (h : a.game_depth = -1) :
    (2 ≤ parts.length →
      foldNames a parts rel
        = some ([], parts.getD (parts.length - 2) "", parts.getD (parts.length - 1) ""))
    ∧ (parts.length = 1 → foldNames a parts rel = none) := by
  constructor
  · intro h2
    have hne : (-1 : Int) ≤ (parts.length : Int) := by omega
    have hlt : (-1 : Int) < (parts.length : Int) := by omega
    have hp2 : pyIndex parts (-2) = some (parts.getD (parts.length - 2) "") := by
      have := pyIndex_neg parts 2 (by omega) (by omega)
      simpa using this
    have hslice : pySliceFrom parts (-1) = parts.drop (parts.length - 1) := by
      simp only [pySliceFrom]
      rw [if_pos (by norm_num)]
      congr 1
      omega
    have hpne : parts ≠ [] := by
      intro hx
      rw [hx] at h2
      simp at h2
    simp only [foldNames, gameOf, romOf, h]
    norm_num [hne, hlt, hp2, hslice, joinSegs_drop_last parts hpne]
  · intro h2
    have hne : (-1 : Int) ≤ (parts.length : Int) := by omega
    have hp2 : pyIndex parts (-2) = none := by
      have := pyIndex_neg_oob parts 2 (by omega) (by omega)
      simpa using this
    simp only [foldNames, gameOf, romOf, h]
    norm_num [hne, hp2]

theorem c10_witness :
    foldNames aNeg1 ["A", "B", "x.txt"] "A/B/x.txt" = some ([], "B", "x.txt")
    ∧ foldNames aNeg1 ["x.txt"] "x.txt" = none := by
  have h1 := (c10_negative_depth aNeg1 ["A", "B", "x.txt"] "A/B/x.txt" rfl).1 (by decide)
  have h2 := (c10_negative_depth aNeg1 ["x.txt"] "x.txt" rfl).2 (by decide)
  exact ⟨by rw [h1]; decide, h2⟩

theorem rlastIdx_none (c : Char) : ∀ (xs : List Char), rlastIdx c xs = none → c ∉ xs := by
  intro xs
  induction xs with
  | nil => intro _ h; simp at h
  | cons x xs ih =>
      intro h
      simp only [rlastIdx] at h
      cases hr : rlastIdx c xs with
      | some r => rw [hr] at h; simp at h
      | none =>
          rw [hr] at h
          by_cases hx : x = c
          · rw [if_pos hx] at h; simp at h
          · rw [if_neg hx] at h
            intro hmem
            rcases List.mem_cons.mp hmem with h1 | h2
            · exact hx h1.symm
            · exact ih hr h2

theorem rlastIdx_some (c : Char) : ∀ (xs : List Char) (n : Nat), rlastIdx c xs = some n →
    ∃ t, xs.drop n = c :: t ∧ c ∉ t := by
  intro xs
  induction xs with
  | nil => intro n h; simp [rlastIdx] at h
  | cons x xs ih =>
      intro n h
      simp only [rlastIdx] at h
      cases hr : rlastIdx c xs with
      | some r =>
          rw [hr] at h
          obtain ⟨t, ht1, ht2⟩ := ih r hr
          refine ⟨t, ?_, ht2⟩
          have hn : n = r + 1 := by
            injection h with h'
            omega
          rw [hn]
          simpa using ht1
      | none =>
          rw [hr] at h
          by_cases hx : x = c
          · rw [if_pos hx] at h
            have hn : n = 0 := by injection h with h'; omega
            rw [hn, hx]
            exact ⟨xs, rfl, rlastIdx_none c xs hr⟩
          · rw [if_neg hx] at h; simp at h


theorem splitext_append (s : String) : (splitext s).1 ++ (splitext s).2 = s := by
  rcases hd : rlastIdx '.' s.data with _ | n
  · simp only [splitext, hd]
    simp
  · rcases hs : rlastIdx '/' s.data with _ | m <;>
      simp only [splitext, hd, hs] <;> split
    · show String.mk (s.data.take n ++ s.data.drop n) = s
      rw [List.take_append_drop]
    · simp
    · show String.mk (s.data.take n ++ s.data.drop n) = s
      rw [List.take_append_drop]
    · simp

theorem splitext_ext_shape (s : String) : (splitext s).2 ≠ "" →
    ∃ t, (splitext s).2 = String.mk ('.' :: t) ∧ '.' ∉ t := by
  rcases hd : rlastIdx '.' s.data with _ | n
  · simp only [splitext, hd]
    intro h
    simp at h
  · obtain ⟨t, ht1, ht2⟩ := rlastIdx_some '.' s.data n hd
    rcases hs : rlastIdx '/' s.data with _ | m <;>
      simp only [splitext, hd, hs] <;> split
    · intro _
      exact ⟨t, by rw [ht1], ht2⟩
    · intro h; simp at h
    · intro _
      exact ⟨t, by rw [ht1], ht2⟩
    · intro h; simp at h

theorem splitext_ext_empty (s : String) : (splitext s).2 = "" → (splitext s).1 = s := by
  rcases hd : rlastIdx '.' s.data with _ | n
  · intro _; simp only [splitext, hd]
  · obtain ⟨t, ht1, ht2⟩ := rlastIdx_some '.' s.data n hd
    rcases hs : rlastIdx '/' s.data with _ | m <;>
      simp only [splitext, hd, hs] <;> split
    · rw [ht1]
      intro h
      have h2 := congrArg String.data h
      simp at h2
    · intro _; rfl
    · rw [ht1]
      intro h
      have h2 := congrArg String.data h
      simp at h2
    · intro _; rfl

theorem getLastD_eq_getLast (l : List String) (h : l ≠ []) : l.getLastD "" = l.getLast h := by
  rw [List.getLastD_eq_getLast?, List.getLast?_eq_getLast _ h]
  rfl

/-- C2: For every folded item whose computed groupName equals its computed
leafName (a loose file): under `looseFilePolicy = parent` with non-empty
`dirSegments`, the last dirSegment is removed from `dirSegments` and
becomes the new groupName; under `looseFilePolicy = strip` with
`stripExtension` true, groupName is replaced by the part of `game` before
its last `'.'` — the removed suffix, when non-empty, starts at the last
dot (it is `'.'` followed by a dot-free tail), and when it is empty (no
extension present) the groupName is unchanged; leafName is unchanged in
both cases. -/
theorem c2_loose_policy (a : Args) (dirs : List String) (game rom : String)
    (hG : game = rom) :
    (a.loose_files = LoosePolicy.parent → ∀ hd : dirs ≠ [],
       looseAdjust a dirs game rom = (dirs.dropLast, dirs.getLast hd, rom))
    ∧ (a.loose_files = LoosePolicy.strip → a.strip = true →
       looseAdjust a dirs game rom = (dirs, (splitext game).1, rom)
       ∧ (splitext game).1 ++ (splitext game).2 = game
       ∧ ((splitext game).2 = "" → (splitext game).1 = game)
       ∧ ((splitext game).2 ≠ "" →
           ∃ t, (splitext game).2 = String.mk ('.' :: t) ∧ '.' ∉ t)) := by
  constructor
  · intro hp hd
    unfold looseAdjust
    rw [if_pos hG, if_pos ⟨hp, hd⟩, getLastD_eq_getLast dirs hd]
  · intro hs hstrip
    have h1 : ¬(a.loose_files = LoosePolicy.parent ∧ dirs ≠ []) := by
      rintro ⟨h, -⟩
      rw [hs] at h
      exact absurd h (by decide)
    refine ⟨?_, splitext_append game, splitext_ext_empty game, splitext_ext_shape game⟩
    unfold looseAdjust
    rw [if_pos hG, if_neg h1, if_pos ⟨hs, hstrip⟩]

theorem c2_witness :
    looseAdjust aParent ["d"] "x" "x" = ([], "d", "x")
    ∧ looseAdjust aFold2 ["d"] "b.txt" "b.txt" = (["d"], "b", "b.txt") := by
  constructor
  · have h := (c2_loose_policy aParent ["d"] "x" "x" rfl).1 rfl (by decide)
    rw [h]
    decide
  · have h := ((c2_loose_policy aFold2 ["d"] "b.txt" "b.txt" rfl).2 rfl rfl).1
    rw [h]
    decide

/-- C9: when `looseFilePolicy = parent` and the loose-file case fires
(groupName equals leafName) with empty `dirSegments`, the item is left
entirely unchanged: no promotion occurs, and no extension is stripped even
when `stripExtension` is true, so the emitted group name equals the leaf
name including its extension. -/
theorem c9_parent_empty_dirs (a : Args) (game rom : String)
    (hp : a.loose_files = LoosePolicy.parent) (hs : a.strip = true)
    (hG : game = rom) :
    looseAdjust a [] game rom = ([], game, rom)
    ∧ (looseAdjust a [] game rom).2.1 = rom := by
  have h1 : ¬(a.loose_files = LoosePolicy.parent ∧ ([] : List String) ≠ []) := by
    rintro ⟨-, h⟩
    exact h rfl
  have h2 : ¬(a.loose_files = LoosePolicy.strip ∧ a.strip = true) := by
    rintro ⟨h, -⟩
    rw [hp] at h
    exact absurd h (by decide)
  unfold looseAdjust
  rw [if_pos hG, if_neg h1, if_neg h2]
  exact ⟨rfl, hG⟩

theorem c9_witness :
    looseAdjust aParent [] "loose.bin" "loose.bin" = ([], "loose.bin", "loose.bin")
    ∧ (looseAdjust aParent [] "loose.bin" "loose.bin").2.1 = "loose.bin" :=
  c9_parent_empty_dirs aParent "loose.bin" "loose.bin" rfl rfl rfl

theorem splitSegGo_ne_nil (cur : List Char) (cs : List Char) : splitSegGo cur cs ≠ [] := by
  induction cs generalizing cur with
  | nil => simp [splitSegGo]
  | cons c rest ih =>
      simp only [splitSegGo]
      split
      · simp
      · exact ih (c :: cur)

theorem splitSeg_ne_nil (s : String) : splitSeg s ≠ [] :=
  splitSegGo_ne_nil [] s.data

theorem joinSegs_cons (a : String) (l : List String) (h : l ≠ []) :
    joinSegs (a :: l) = a ++ "/" ++ joinSegs l := by
  cases l with
  | nil => exact absurd rfl h
  | cons b l2 => rfl

theorem joinSegs_splitSegGo (cs : List Char) :
    ∀ cur : List Char, joinSegs (splitSegGo cur cs) = String.mk (cur.reverse ++ cs) := by
  induction cs with
  | nil =>
      intro cur
      simp [splitSegGo, joinSegs]
  | cons c rest ih =>
      intro cur
      simp only [splitSegGo]
      split
      · next hc =>
          rw [joinSegs_cons _ _ (splitSegGo_ne_nil [] rest), ih []]
          subst hc
          show String.mk ((cur.reverse ++ ['/']) ++ (List.reverse [] ++ rest))
              = String.mk (cur.reverse ++ '/' :: rest)
          congr 1
          simp
      · next hc =>
          rw [ih (c :: cur)]
          congr 1
          simp

/-- Joining the split segments restores the string: the leaf name written for a `foldDepth = 0`
run, which is the raw relative path, equals all segments joined by `'/'`. -/
theorem joinSegs_splitSeg (s : String) : joinSegs (splitSeg s) = s := by
  rw [splitSeg, joinSegs_splitSegGo s.data []]
  rfl

theorem alookup_append_some {α β : Type} [DecidableEq α] (l l2 : List (α × β)) (k : α) (v : β)
    (h : alookup l k = some v) : alookup (l ++ l2) k = some v := by
  induction l with
  | nil => simp [alookup] at h
  | cons p rest ih =>
      simp only [alookup, List.cons_append] at h ⊢
      split at h
      · next heq => rw [if_pos heq]; exact h
      · next heq => rw [if_neg heq]; exact ih h

theorem alookup_append_fresh {α β : Type} [DecidableEq α] (l : List (α × β)) (k : α) (v : β)
    (h : alookup l k = none) : alookup (l ++ [(k, v)]) k = some v := by
  induction l with
  | nil => simp [alookup]
  | cons p rest ih =>
      simp only [alookup, List.cons_append] at h ⊢
      split at h
      · next heq => simp at h
      · next heq => rw [if_neg heq]; exact ih h

theorem resolveDirs_others (parts : List String) (dirs : List String) :
    ∀ (st : BState) (pid lvl : Nat),
      (resolveDirs parts st pid lvl dirs).1.gameCache = st.gameCache
      ∧ (resolveDirs parts st pid lvl dirs).1.gameElems = st.gameElems
      ∧ (resolveDirs parts st pid lvl dirs).1.roms = st.roms
      ∧ st.nextId ≤ (resolveDirs parts st pid lvl dirs).1.nextId := by
  induction dirs with
  | nil => intro st pid lvl; exact ⟨rfl, rfl, rfl, le_refl _⟩
  | cons d rest ih =>
      intro st pid lvl
      simp only [resolveDirs]
      cases hcc : alookup st.dirCache (lvl, joinSegs (parts.take lvl)) with
      | some nid =>
          simpa using ih _ nid (lvl + 1)
      | none =>
          have h := ih { st with
            dirCache := st.dirCache ++ [((lvl, joinSegs (parts.take lvl)), st.nextId)]
            dirElems := st.dirElems ++
              [⟨(lvl, joinSegs (parts.take lvl)), pid, st.nextId, d⟩]
            nextId := st.nextId + 1
            dirTrace := st.dirTrace ++ [((lvl, joinSegs (parts.take lvl)), st.nextId)] }
            st.nextId (lvl + 1)
          refine ⟨h.1, h.2.1, h.2.2.1, ?_⟩
          have := h.2.2.2
          simp at this ⊢
          omega

theorem foldNames_total (a : Args) (parts : List String) (rel : String)
    (hd : 0 ≤ a.game_depth) (hp : parts ≠ []) :
    ∃ y, foldNames a parts rel = some y := by
  by_cases h0 : a.game_depth = 0
  · refine ⟨([], pyOr a.name "DAT", rel), ?_⟩
    simp [foldNames, h0]
  · exact ⟨_, foldNames_pos a parts rel (by omega) hp⟩

theorem foldAndAdjust_total (a : Args) (parts : List String) (rel : String)
    (hd : 0 ≤ a.game_depth) (hp : parts ≠ []) :
    ∃ x, foldAndAdjust a parts rel = some x := by
  obtain ⟨⟨dirs, game, rom⟩, hy⟩ := foldNames_total a parts rel hd hp
  refine ⟨looseAdjust a dirs game rom, ?_⟩
  unfold foldAndAdjust
  rw [hy]

theorem processItem_total (a : Args) (st : BState) (it : Item)
    (hd : 0 ≤ a.game_depth) :
    ∃ st2, processItem a st it = some st2 := by
  obtain ⟨⟨dirs, game, rom⟩, hy⟩ :=
    foldAndAdjust_total a (splitSeg it.rel) it.rel hd (splitSeg_ne_nil it.rel)
  rw [← Option.isSome_iff_exists]
  simp only [processItem, hy]
  by_cases h0 : a.game_depth = 0
  · simp [h0]
  · simp only [if_neg h0]
    cases hgc : alookup (resolveDirs (splitSeg it.rel) st 0 1 dirs).1.gameCache
        (gameKey dirs game) with
    | some gid => simp [hgc]
    | none => simp [hgc]

theorem processItem_roms (a : Args) (st : BState) (it : Item) (st2 : BState)
    (h : processItem a st it = some st2) :
    st2.roms.map romProj = st.roms.map romProj ++ [expectedRom a it] := by
  cases hy : foldAndAdjust a (splitSeg it.rel) it.rel with
  | none => simp [processItem, hy] at h
  | some x =>
      obtain ⟨dirs, game, rom⟩ := x
      simp only [processItem, hy] at h
      have hro := (resolveDirs_others (splitSeg it.rel) dirs st 0 1).2.2.1
      by_cases h0 : a.game_depth = 0
      · rw [if_pos h0] at h
        injection h with h2
        rw [← h2]
        simp [romProj, mkRom, expectedRom, hy, hro]
      · rw [if_neg h0] at h
        cases hgc : alookup (resolveDirs (splitSeg it.rel) st 0 1 dirs).1.gameCache
            (gameKey dirs game) with
        | some gid =>
            rw [hgc] at h
            injection h with h2
            rw [← h2]
            simp [romProj, mkRom, expectedRom, hy, hro]
        | none =>
            rw [hgc] at h
            injection h with h2
            rw [← h2]
            simp [romProj, mkRom, expectedRom, hy, hro]

theorem runLoop_roms (a : Args) (hd : 0 ≤ a.game_depth) (items : List Item) :
    ∀ st : BState,
      (runLoop a st items).2 = true
      ∧ (runLoop a st items).1.roms.map romProj
          = st.roms.map romProj ++ items.map (expectedRom a) := by
  induction items with
  | nil => intro st; simp [runLoop]
  | cons it rest ih =>
      intro st
      obtain ⟨st2, h2⟩ := processItem_total a st it hd
      simp only [runLoop, h2]
      obtain ⟨hb, hr⟩ := ih st2
      refine ⟨hb, ?_⟩
      rw [hr, processItem_roms a st it st2 h2]
      simp

theorem initState_roms (a : Args) : (initState a).roms = [] := by
  unfold initState
  split <;> rfl

/-- C5: If the run is interrupted (user cancellation or a failing file
read) after the first `N` of `M` items have been fully processed, the
output document is still written (the `finally` block always serializes),
is well-formed with a valid header (the header equals the one
`build_header` constructs, independent of the interruption point), and
contains exactly the `N` leaf records — in order, with the folded name and
the digests — of the files processed before the interruption. -/
theorem c5_interruption_keeps_records (a : Args) (today : String)
    (items : List Item) (N : Nat) (hd : 0 ≤ a.game_depth)
    (hN : N ≤ items.length) :
    (build_dat_interrupted a today items N).header = buildHeader a today
    ∧ (build_dat_interrupted a today items N).roms.length = N
    ∧ (build_dat_interrupted a today items N).roms.map romProj
        = (items.take N).map (expectedRom a) := by
  have h := (runLoop_roms a hd (items.take N) (initState a)).2
  rw [initState_roms] at h
  simp only [List.map_nil, List.nil_append] at h
  refine ⟨rfl, ?_, ?_⟩
  · have hlen := congrArg List.length h
    simp only [List.length_map, List.length_take] at hlen
    show (runLoop a (initState a) (items.take N)).1.roms.length = N
    omega
  · exact h

theorem c5_witness :
    (build_dat_interrupted aParent "2026-10-12" [itemX, itemY] 1).header
        = buildHeader aParent "2026-10-12"
    ∧ (build_dat_interrupted aParent "2026-10-12" [itemX, itemY] 1).roms.length = 1
    ∧ (build_dat_interrupted aParent "2026-10-12" [itemX, itemY] 1).roms.map romProj
        = ([itemX, itemY].take 1).map (expectedRom aParent) :=
  c5_interruption_keeps_records aParent "2026-10-12" [itemX, itemY] 1
    (by decide) (by decide)

theorem looseAdjust_nil (a : Args) (g r : String) :
    ∃ g2, looseAdjust a [] g r = ([], g2, r) := by
  unfold looseAdjust
  split_ifs with h1 h2 h3
  · exact absurd h2.2 (by simp)
  · exact ⟨(splitext g).1, rfl⟩
  · exact ⟨g, rfl⟩
  · exact ⟨g, rfl⟩

theorem processItem_depth0 (a : Args) (st : BState) (it : Item)
    (h0 : a.game_depth = 0) :
    ∃ g2, processItem a st it
      = some { st with roms := st.roms ++ [mkRom ([], g2) gGlobalId it.rel it] } := by
  have hf : foldNames a (splitSeg it.rel) it.rel
      = some ([], pyOr a.name "DAT", it.rel) := by
    simp [foldNames, h0]
  obtain ⟨g2, hla⟩ := looseAdjust_nil a (pyOr a.name "DAT") it.rel
  have hy : foldAndAdjust a (splitSeg it.rel) it.rel = some ([], g2, it.rel) := by
    unfold foldAndAdjust
    rw [hf]
    show some (looseAdjust a [] (pyOr a.name "DAT") it.rel) = some ([], g2, it.rel)
    rw [hla]
  refine ⟨g2, ?_⟩
  simp [processItem, hy, h0, resolveDirs]

theorem runLoop_depth0 (a : Args) (h0 : a.game_depth = 0) (items : List Item) :
    ∀ st : BState,
      (runLoop a st items).2 = true
      ∧ (runLoop a st items).1.gameElems = st.gameElems
      ∧ (runLoop a st items).1.dirElems = st.dirElems
      ∧ (runLoop a st items).1.roms.map (fun r => (r.gameId, r.name))
          = st.roms.map (fun r => (r.gameId, r.name))
            ++ items.map (fun it => (gGlobalId, it.rel)) := by
  induction items with
  | nil => intro st; simp [runLoop]
  | cons it rest ih =>
      intro st
      obtain ⟨g2, h2⟩ := processItem_depth0 a st it h0
      simp only [runLoop, h2]
      obtain ⟨hb, hg, hdirs, hr⟩ := ih _
      refine ⟨hb, by rw [hg], by rw [hdirs], ?_⟩
      rw [hr]
      simp [mkRom]

/-- C3: when `foldDepth == 0` the built hierarchy contains exactly one
group node — the global `<game>` created up front, named
`RunConfig.name or "DAT"` — with no directory nodes, and every file's leaf
record sits under that group with leaf name equal to its full relative
path, which in turn equals all its segments joined by `'/'`, regardless of
tree shape. -/
theorem c3_depth0_single_group (a : Args) (today : String) (items : List Item)
    (h0 : a.game_depth = 0) :
    (build_dat a today items).gameElems = [⟨0, gGlobalId, pyOr a.name "DAT"⟩]
    ∧ (build_dat a today items).dirElems = []
    ∧ (build_dat a today items).roms.map (fun r => (r.gameId, r.name))
        = items.map (fun it => (gGlobalId, it.rel))
    ∧ items.map (fun it => joinSegs (splitSeg it.rel)) = items.map (fun it => it.rel) := by
  obtain ⟨hb, hg, hdirs, hr⟩ := runLoop_depth0 a h0 items (initState a)
  have hinit : initState a
      = { emptyState with nextId := 2, gameElems := [⟨0, gGlobalId, pyOr a.name "DAT"⟩] } := by
    unfold initState
    rw [if_pos h0]
  refine ⟨?_, ?_, ?_, ?_⟩
  · show (finalState a items).gameElems = _
    unfold finalState
    rw [hg, hinit]
  · show (finalState a items).dirElems = _
    unfold finalState
    rw [hdirs, hinit]
    rfl
  · show (finalState a items).roms.map _ = _
    unfold finalState
    rw [hr, hinit]
    rfl
  · apply List.map_congr_left
    intro it _
    exact joinSegs_splitSeg it.rel

theorem c3_witness :
    (build_dat aDepth0 "2026-10-12" [itemX, itemY]).gameElems
        = [⟨0, gGlobalId, "DAT"⟩]
    ∧ (build_dat aDepth0 "2026-10-12" [itemX, itemY]).dirElems = []
    ∧ (build_dat aDepth0 "2026-10-12" [itemX, itemY]).roms.map
        (fun r => (r.gameId, r.name))
        = [(gGlobalId, "A/x.txt"), (gGlobalId, "A/B/y.txt")] := by
  have h := c3_depth0_single_group aDepth0 "2026-10-12" [itemX, itemY] rfl
  refine ⟨h.1, h.2.1, ?_⟩
  rw [h.2.2.1]
  decide

/-- C8 counterexample: for the `RunConfig` with `foldDepth = 0`, scanning
an empty source root still emits the pre-created global `<game>` element
(lines 155-159), so the document does NOT contain the header only: it
contains a group element. This refutes the claim for `foldDepth = 0`. -/
theorem c8_counterexample :
    (build_dat aDepth0 "2026-10-12" []).gameElems ≠ [] := by decide

/-- C8 (amended): for every `RunConfig` with `foldDepth ≠ 0`, scanning an
empty source root (no regular files) produces a document containing the
header only — no directory elements, no group elements and no leaf
elements — and does not error (the loop completes normally). For
`foldDepth = 0` the document additionally contains the single pre-created
(empty) global group element, but still no leaf elements. -/
theorem c8_empty_root (a : Args) (today : String) (h : a.game_depth ≠ 0) :
    build_dat a today [] = ⟨buildHeader a today, [], [], []⟩
    ∧ (runLoop a (initState a) []).2 = true := by
  have hinit : initState a = emptyState := by
    unfold initState
    rw [if_neg h]
  constructor
  · show writeDoc a today (initState a) = _
    rw [hinit]
    rfl
  · rfl

theorem c8_witness :
    build_dat aParent "2026-10-12" []
        = ⟨buildHeader aParent "2026-10-12", [], [], []⟩
    ∧ (runLoop aParent (initState aParent) []).2 = true :=
  c8_empty_root aParent "2026-10-12" (by decide)

theorem DirOk_of_same (st st' : BState) (h1 : st'.dirCache = st.dirCache)
    (h2 : st'.dirElems = st.dirElems) (h3 : st'.dirTrace = st.dirTrace)
    (h : DirOk st) : DirOk st' := by
  unfold DirOk at h ⊢
  rw [h1, h2, h3]
  exact h

theorem RomOk_of_same (a : Args) (st st' : BState) (h1 : st'.gameCache = st.gameCache)
    (h2 : st'.roms = st.roms) (h : RomOk a st) : RomOk a st' := by
  unfold RomOk at h ⊢
  rw [h1, h2]
  exact h

theorem resolveDirs_dirOk (parts : List String) (dirs : List String) :
    ∀ (st : BState) (pid lvl : Nat), DirOk st →
      DirOk (resolveDirs parts st pid lvl dirs).1
      ∧ (∀ k v, alookup st.dirCache k = some v →
          alookup (resolveDirs parts st pid lvl dirs).1.dirCache k = some v) := by
  induction dirs with
  | nil => intro st pid lvl h; exact ⟨h, fun k v hv => hv⟩
  | cons d rest ih =>
      intro st pid lvl h
      obtain ⟨hT, hE, hP⟩ := h
      simp only [resolveDirs]
      cases hcc : alookup st.dirCache (lvl, joinSegs (parts.take lvl)) with
      | some nid =>
          have hstep : DirOk { st with
              dirTrace := st.dirTrace ++ [((lvl, joinSegs (parts.take lvl)), nid)] } := by
            refine ⟨?_, hE, hP⟩
            intro p hp
            rcases List.mem_append.mp hp with hold | hnew
            · exact hT p hold
            · have : p = ((lvl, joinSegs (parts.take lvl)), nid) := by simpa using hnew
              rw [this]
              exact hcc
          exact ih _ nid (lvl + 1) hstep
      | none =>
          have hstep : DirOk { st with
              dirCache := st.dirCache ++ [((lvl, joinSegs (parts.take lvl)), st.nextId)]
              dirElems := st.dirElems ++
                [⟨(lvl, joinSegs (parts.take lvl)), pid, st.nextId, d⟩]
              nextId := st.nextId + 1
              dirTrace := st.dirTrace ++ [((lvl, joinSegs (parts.take lvl)), st.nextId)] } := by
            refine ⟨?_, ?_, ?_⟩
            · intro p hp
              rcases List.mem_append.mp hp with hold | hnew
              · exact alookup_append_some _ _ _ _ (hT p hold)
              · have : p = ((lvl, joinSegs (parts.take lvl)), st.nextId) := by simpa using hnew
                rw [this]
                exact alookup_append_fresh _ _ _ hcc
            · intro e he
              rcases List.mem_append.mp he with hold | hnew
              · exact alookup_append_some _ _ _ _ (hE e hold)
              · have : e = ⟨(lvl, joinSegs (parts.take lvl)), pid, st.nextId, d⟩ := by
                  simpa using hnew
                rw [this]
                exact alookup_append_fresh _ _ _ hcc
            · intro e he f hf hk
              rcases List.mem_append.mp he with heo | hen <;>
                rcases List.mem_append.mp hf with hfo | hfn
              · exact hP e heo f hfo hk
              · have hfn2 : f = ⟨(lvl, joinSegs (parts.take lvl)), pid, st.nextId, d⟩ := by
                  simpa using hfn
                have : alookup st.dirCache e.key = some e.id := hE e heo
                rw [hk, hfn2] at this
                rw [hcc] at this
                simp at this
              · have hen2 : e = ⟨(lvl, joinSegs (parts.take lvl)), pid, st.nextId, d⟩ := by
                  simpa using hen
                have : alookup st.dirCache f.key = some f.id := hE f hfo
                rw [← hk, hen2] at this
                rw [hcc] at this
                simp at this
              · have hen2 : e = ⟨(lvl, joinSegs (parts.take lvl)), pid, st.nextId, d⟩ := by
                  simpa using hen
                have hfn2 : f = ⟨(lvl, joinSegs (parts.take lvl)), pid, st.nextId, d⟩ := by
                  simpa using hfn
                rw [hen2, hfn2]
          obtain ⟨ho, hm⟩ := ih _ st.nextId (lvl + 1) hstep
          refine ⟨ho, fun k v hv => hm k v ?_⟩
          exact alookup_append_some _ _ _ _ hv

theorem processItem_inv (a : Args) (st : BState) (it : Item) (st2 : BState)
    (h : processItem a st it = some st2) (hinv : BuildInv a st) : BuildInv a st2 := by
  cases hy : foldAndAdjust a (splitSeg it.rel) it.rel with
  | none => simp [processItem, hy] at h
  | some x =>
      obtain ⟨dirs, game, rom⟩ := x
      simp only [processItem, hy] at h
      obtain ⟨hdo, _⟩ := resolveDirs_dirOk (splitSeg it.rel) dirs st 0 1 hinv.1
      obtain ⟨hgc, hge, hro, _⟩ := resolveDirs_others (splitSeg it.rel) dirs st 0 1
      have hrok : RomOk a (resolveDirs (splitSeg it.rel) st 0 1 dirs).1 :=
        RomOk_of_same a st _ hgc hro hinv.2
      by_cases h0 : a.game_depth = 0
      · rw [if_pos h0] at h
        injection h with h2
        rw [← h2]
        constructor
        · exact DirOk_of_same _ _ rfl rfl rfl hdo
        · intro r hr
          rcases List.mem_append.mp hr with hold | hnew
          · exact hrok r hold
          · have : r = mkRom (dirs, game) gGlobalId rom it := by simpa using hnew
            rw [this, if_pos h0]
            rfl
      · rw [if_neg h0] at h
        cases hgk : alookup (resolveDirs (splitSeg it.rel) st 0 1 dirs).1.gameCache
            (gameKey dirs game) with
        | some gid =>
            rw [hgk] at h
            injection h with h2
            rw [← h2]
            constructor
            · exact DirOk_of_same _ _ rfl rfl rfl hdo
            · intro r hr
              rw [if_neg h0]
              rcases List.mem_append.mp hr with hold | hnew
              · have := hrok r hold
                rw [if_neg h0] at this
                exact this
              · have : r = mkRom (dirs, game) gid rom it := by simpa using hnew
                rw [this]
                exact hgk
        | none =>
            rw [hgk] at h
            injection h with h2
            rw [← h2]
            constructor
            · exact DirOk_of_same _ _ rfl rfl rfl hdo
            · intro r hr
              rw [if_neg h0]
              rcases List.mem_append.mp hr with hold | hnew
              · have := hrok r hold
                rw [if_neg h0] at this
                exact alookup_append_some _ _ _ _ this
              · have : r = mkRom (dirs, game)
                    (resolveDirs (splitSeg it.rel) st 0 1 dirs).1.nextId rom it := by
                  simpa using hnew
                rw [this]
                exact alookup_append_fresh _ _ _ hgk

theorem runLoop_inv (a : Args) (items : List Item) :
    ∀ st : BState, BuildInv a st → BuildInv a (runLoop a st items).1 := by
  induction items with
  | nil => intro st h; exact h
  | cons it rest ih =>
      intro st h
      simp only [runLoop]
      cases hp : processItem a st it with
      | none => exact h
      | some st2 => exact ih st2 (processItem_inv a st it st2 hp h)

theorem BuildInv_init (a : Args) : BuildInv a (initState a) := by
  have h1 : (initState a).dirTrace = [] := by unfold initState; split <;> rfl
  have h2 : (initState a).dirElems = [] := by unfold initState; split <;> rfl
  have h3 : (initState a).roms = [] := initState_roms a
  refine ⟨⟨?_, ?_, ?_⟩, ?_⟩
  · rw [h1]; intro p hp; simp at hp
  · rw [h2]; intro e he; simp at he
  · rw [h2]; intro e he; simp at he
  · intro r hr; rw [h3] at hr; simp at hr

/-- C4: Throughout one run with `foldDepth >= 1`, any two items whose
relative paths share an identical directory prefix up to level `L`
resolve to the identical `<dir>` element (every two recorded directory
resolutions with the same `(level, joined-prefix)` cache key yield the
same element id, and no two `<dir>` elements are created for the same
key), and any two items resolving to the same `(dirSegments, groupName)`
key have their leaf records inserted under the identical `<game>` element
(equal keys imply equal owning game ids), regardless of insertion order. -/
theorem c4_node_identity (a : Args) (items : List Item) (h1 : 1 ≤ a.game_depth) :
    (∀ p ∈ (finalState a items).dirTrace, ∀ q ∈ (finalState a items).dirTrace,
       p.1 = q.1 → p.2 = q.2)
    ∧ (∀ e ∈ (finalState a items).dirElems, ∀ f ∈ (finalState a items).dirElems,
       e.key = f.key → e = f)
    ∧ (∀ r ∈ (finalState a items).roms, ∀ r2 ∈ (finalState a items).roms,
       r.key = r2.key → r.gameId = r2.gameId) := by
  obtain ⟨⟨hT, hE, hP⟩, hR⟩ := runLoop_inv a items (initState a) (BuildInv_init a)
  refine ⟨?_, hP, ?_⟩
  · intro p hp q hq hk
    have ha := hT p hp
    have hb := hT q hq
    rw [hk] at ha
    rw [ha] at hb
    exact Option.some.inj hb
  · intro r hr r2 hr2 hk
    have ha := hR r hr
    have hb := hR r2 hr2
    rw [if_neg (by omega)] at ha hb
    rw [hk] at ha
    rw [ha] at hb
    exact Option.some.inj hb

theorem c4_witness :
    (∀ p ∈ (finalState aParent [itemX, itemY]).dirTrace,
     ∀ q ∈ (finalState aParent [itemX, itemY]).dirTrace, p.1 = q.1 → p.2 = q.2)
    ∧ (∀ e ∈ (finalState aParent [itemX, itemY]).dirElems,
       ∀ f ∈ (finalState aParent [itemX, itemY]).dirElems, e.key = f.key → e = f)
    ∧ (∀ r ∈ (finalState aParent [itemX, itemY]).roms,
       ∀ r2 ∈ (finalState aParent [itemX, itemY]).roms,
       r.key = r2.key → r.gameId = r2.gameId) :=
  c4_node_identity aParent [itemX, itemY] (by decide)
